import Mathlib

/-!
Verification of the ElGamal cipher implemented in `src/elgamal.rs` of the
jubjub repository.

The repository's own code is the single file `elgamal.rs`; the curve group
`ExtendedPoint` and the scalar field `Fr` it operates on come from the
surrounding crate and are not part of the repository sources.  Following the
specification, which treats them as an opaque additive group `G` with a
scalar ring `F` acting on it by scalar multiplication, we embed the cipher
over an arbitrary `AddCommGroup G` with a `Module F G` action of a
commutative ring `F`.  Rust's point-times-scalar product `p * s` is written
`s • p` here.  Concrete evaluations instantiate `G` and `F` with `ZMod 13`
acting on itself, a cyclic group of prime order as the specification
demands.
-/

/-- Modelled from the spec: the curve group `ExtendedPoint` and scalar field
`Fr` are external to the repository, so `G` and `F` below stand for the
spec's opaque prime-order additive group and its scalar ring.  The cipher
itself mirrors `struct ElgamalCipher { gamma, delta }` of `elgamal.rs`. -/
structure ElgamalCipher (G : Type) where
  gamma : G
  delta : G

namespace ElgamalCipher

variable {G F : Type} [AddCommGroup G] [CommRing F] [Module F G]

/-- Embeds `ElgamalCipher::new(gamma, delta)`: stores the two components
unchanged. -/
def new (gamma delta : G) : ElgamalCipher G :=
  ⟨gamma, delta⟩

/-- Embeds `ElgamalCipher::encrypt(secret, public, generator, message)`:
`gamma = generator * secret`, `delta = message + public * secret`. -/
def encrypt (secret : F) (public generator message : G) : ElgamalCipher G :=
  new (secret • generator) (message + secret • public)

/-- Embeds `ElgamalCipher::decrypt(secret)`:
returns `delta - gamma * secret`. -/
def decrypt (c : ElgamalCipher G) (secret : F) : G :=
  c.delta - secret • c.gamma

/-- Embeds `impl Add for &ElgamalCipher`: component-wise group addition.
The owned `impl Add for ElgamalCipher` delegates to this. -/
def add (c other : ElgamalCipher G) : ElgamalCipher G :=
  new (c.gamma + other.gamma) (c.delta + other.delta)

/-- Embeds `impl Sub for &ElgamalCipher`: component-wise group subtraction.
The owned `impl Sub for ElgamalCipher` delegates to this. -/
def sub (c other : ElgamalCipher G) : ElgamalCipher G :=
  new (c.gamma - other.gamma) (c.delta - other.delta)

/-- Embeds `impl Mul of &Fr for &ElgamalCipher`: scales both components by
the scalar.  The owned `impl Mul of Fr` delegates to this. -/
def mul (c : ElgamalCipher G) (rhs : F) : ElgamalCipher G :=
  new (rhs • c.gamma) (rhs • c.delta)

/-- Embeds `impl AddAssign`: the final value of `self` after
`*self = *self + other`, which goes through the owned and then the
reference `Add` implementation. -/
def add_assign (c other : ElgamalCipher G) : ElgamalCipher G :=
  add c other

/-- Embeds `impl SubAssign`: the final value of `self` after
`*self = *self - other`. -/
def sub_assign (c other : ElgamalCipher G) : ElgamalCipher G :=
  sub c other

/-- Embeds `impl MulAssign of Fr`: the final value of `self` after
`*self = &*self * &rhs` (the borrowed `MulAssign` variant is the same
delegation). -/
def mul_assign (c : ElgamalCipher G) (rhs : F) : ElgamalCipher G :=
  mul c rhs

/-- Decryption with the matching receiver secret undoes encryption; the
shared core of the round-trip facts. -/
lemma decrypt_encrypt (s r : F) (g m : G) :
    decrypt (encrypt s (r • g) g m) r = m := by
  simp [decrypt, encrypt, new, smul_smul, mul_comm r s]

/-- Decryption is additive over the component-wise sum of ciphers. -/
lemma decrypt_add (c d : ElgamalCipher G) (r : F) :
    decrypt (add c d) r = decrypt c r + decrypt d r := by
  simp only [decrypt, add, new, smul_add]
  abel

/-- Decryption commutes with the component-wise difference of ciphers. -/
lemma decrypt_sub (c d : ElgamalCipher G) (r : F) :
    decrypt (sub c d) r = decrypt c r - decrypt d r := by
  simp only [decrypt, sub, new, smul_sub]
  abel

/-- Decryption commutes with scaling both components by a scalar. -/
lemma decrypt_mul (c : ElgamalCipher G) (x r : F) :
    decrypt (mul c x) r = x • decrypt c r := by
  simp only [decrypt, mul, new, smul_sub, smul_smul, mul_comm r x]

end ElgamalCipher

open ElgamalCipher

/-- C2: two ciphers encrypted to the same receiver public key
`public = generator * receiverSecret`, with arbitrary and possibly
different sender secrets, decrypt after addition to the group sum of the
two messages. -/
theorem elgamal_homomorphic_add {G F : Type} [AddCommGroup G] [CommRing F]
    [Module F G] (s1 s2 r : F) (generator m1 m2 : G) :
    decrypt
        (add (encrypt s1 (r • generator) generator m1)
          (encrypt s2 (r • generator) generator m2)) r = m1 + m2 := by
  rw [decrypt_add, decrypt_encrypt, decrypt_encrypt]

/-- C4: subtraction of ciphers is component-wise group subtraction of
`gamma` and `delta`, and two ciphers encrypted to the same receiver public
key decrypt after subtraction to the group difference of the messages. -/
theorem elgamal_homomorphic_sub {G F : Type} [AddCommGroup G] [CommRing F]
    [Module F G] (s1 s2 r : F) (generator m1 m2 : G)
    (c1 c2 : ElgamalCipher G) :
    sub c1 c2 = new (c1.gamma - c2.gamma) (c1.delta - c2.delta) ∧
      decrypt
          (sub (encrypt s1 (r • generator) generator m1)
            (encrypt s2 (r • generator) generator m2)) r = m1 - m2 := by
  refine ⟨rfl, ?_⟩
  rw [decrypt_sub, decrypt_encrypt, decrypt_encrypt]

/-- C3: scaling a cipher encrypted to `public = generator * receiverSecret`
by a scalar and decrypting yields the scalar times the message, and the
property iterates over three successive scalings. -/
theorem elgamal_homomorphic_mul {G F : Type} [AddCommGroup G] [CommRing F]
    [Module F G] (s r x m1 m2 m3 : F) (generator message : G) :
    decrypt (mul (encrypt s (r • generator) generator message) x) r =
        x • message ∧
      decrypt
          (mul (mul (mul (encrypt s (r • generator) generator message) m1)
            m2) m3) r = (m1 * m2 * m3) • message := by
  constructor
  · rw [decrypt_mul, decrypt_encrypt]
  · rw [decrypt_mul, decrypt_mul, decrypt_mul, decrypt_encrypt, smul_smul,
      smul_smul]
    ring_nf

/-- C5: the cipher returned by `encrypt` has `gamma = generator * secret`
and `delta = message + public * secret`. -/
theorem elgamal_encrypt_postcondition {G F : Type} [AddCommGroup G]
    [CommRing F] [Module F G] (secret : F) (public generator message : G) :
    (encrypt secret public generator message).gamma = secret • generator ∧
      (encrypt secret public generator message).delta =
        message + secret • public :=
  ⟨rfl, rfl⟩

/-- C6: for every cipher, whether or not produced by `encrypt`, and every
secret, `decrypt` returns exactly `delta - gamma * secret`. -/
theorem elgamal_decrypt_formula {G F : Type} [AddCommGroup G] [CommRing F]
    [Module F G] (c : ElgamalCipher G) (secret : F) :
    decrypt c secret = c.delta - secret • c.gamma :=
  rfl

/-- C7: with generator `g`, sender secret `7`, receiver secret `11`,
`public = g * 11` and `message = g * 5`, decrypting with `11` recovers the
message while decrypting with `12` does not; the hypothesis `7 • g ≠ 0`
records that the generator's order does not divide `7`, which holds in the
prime-order group the spec fixes. -/
theorem elgamal_concrete_scenario {G F : Type} [AddCommGroup G] [CommRing F]
    [Module F G] (g : G) (h7 : (7 : F) • g ≠ 0) :
    decrypt (encrypt (7 : F) ((11 : F) • g) g ((5 : F) • g)) (11 : F) =
        (5 : F) • g ∧
      decrypt (encrypt (7 : F) ((11 : F) • g) g ((5 : F) • g)) (12 : F) ≠
        (5 : F) • g := by
  have hval :
      decrypt (encrypt (7 : F) ((11 : F) • g) g ((5 : F) • g)) (12 : F) =
        (5 : F) • g - (7 : F) • g := by
    simp only [decrypt, encrypt, new, smul_smul, smul_add]
    rw [add_sub_assoc, ← sub_smul]
    norm_num
    abel
  refine ⟨decrypt_encrypt 7 11 g ((5 : F) • g), fun h => h7 ?_⟩
  exact sub_eq_self.mp (hval.symm.trans h)

/-- Evaluates the concrete scenario in the prime-order cyclic group
`ZMod 13` acting on itself with generator `1`. -/
theorem elgamal_concrete_scenario_witness :
    (7 : ZMod 13) • (1 : ZMod 13) ≠ 0 ∧
      (decrypt
            (encrypt (7 : ZMod 13) ((11 : ZMod 13) • (1 : ZMod 13))
              (1 : ZMod 13) ((5 : ZMod 13) • (1 : ZMod 13))) (11 : ZMod 13) =
          (5 : ZMod 13) • (1 : ZMod 13) ∧
        decrypt
            (encrypt (7 : ZMod 13) ((11 : ZMod 13) • (1 : ZMod 13))
              (1 : ZMod 13) ((5 : ZMod 13) • (1 : ZMod 13))) (12 : ZMod 13) ≠
          (5 : ZMod 13) • (1 : ZMod 13)) :=
  ⟨by decide, elgamal_concrete_scenario (1 : ZMod 13) (by decide)⟩

/-- C8: addition of ciphers is commutative, component-wise in the group. -/
theorem elgamal_add_comm {G : Type} [AddCommGroup G]
    (c1 c2 : ElgamalCipher G) : add c1 c2 = add c2 c1 := by
  unfold add new
  rw [add_comm c1.gamma, add_comm c1.delta]

/-- C9: the assigning operators leave `self` exactly equal to the result of
the corresponding non-mutating operator; they add no further behavior. -/
theorem elgamal_assign_variants {G F : Type} [AddCommGroup G] [CommRing F]
    [Module F G] (c d : ElgamalCipher G) (s : F) :
    add_assign c d = add c d ∧ sub_assign c d = sub c d ∧
      mul_assign c s = mul c s :=
  ⟨rfl, rfl, rfl⟩

/-- C10: `new` stores its two arguments unchanged and the `gamma` and
`delta` accessors return exactly the stored components. -/
theorem elgamal_new_getters {G : Type} (g d : G) :
    (new g d).gamma = g ∧ (new g d).delta = d :=
  ⟨rfl, rfl⟩

open ElgamalCipher

/-- C1: for every receiver secret, sender secret and message, with
`public = generator * secret`, decrypting the encryption of the message
with the receiver secret returns the message. -/
theorem elgamal_round_trip {G F : Type} [AddCommGroup G] [CommRing F]
    [Module F G] (senderSecret secret : F) (generator message : G) :
    decrypt (encrypt senderSecret (secret • generator) generator message)
      secret = message :=
  decrypt_encrypt senderSecret secret generator message
